import Mathlib

set_option maxHeartbeats 1000000

namespace DocHelper

/-!
Shallow embedding of the doc-helper batch file processor.

Two variants of the application exist in the repository:
* the batch variant (`src/src/App.jsx`): images and PDFs, collect-then-package
  into a single zip archive;
* the image-only variant (`src/unnamed/part_000`): images only, sequential
  process-and-download per entry.

External collaborators (image decode, canvas encode, pdf-lib load/save) are
modelled by an `Oracle` value injected per entry; promises are modelled by the
three-valued `ProcOutcome` (resolved / rejected / pending forever).
-/

/-- A user-selected file: name, declared MIME type (`file.type` in JS), size. -/
structure SourceFile where
  name : String
  type : String
  size : Nat
  deriving DecidableEq

/-- Entry kind, from `file.type.startsWith('image/') ? 'image' : 'pdf'`. -/
inductive FileKind where
  | image
  | pdf
  deriving DecidableEq

/-- A tracked entry of the store, mirroring the JS record
`{ id, file, type, preview, outputFilename, width, height }`.  Fields that are
`undefined` for PDF entries (`preview`, `width`, `height`) are `Option`s.  The
image-only variant has no explicit `type` field; all its entries are images,
so its intake always sets `type := .image`. -/
structure Entry where
  id : String
  file : SourceFile
  type : FileKind
  preview : Option String
  outputFilename : String
  width : Option Nat
  height : Option Nat
  deriving DecidableEq

/-- MIME classification in the batch variant's `handleFileChange`:
`file.type.startsWith('image/')`. -/
def classifyKind (mime : String) : FileKind :=
  if "image/".data.isPrefixOf mime.data then .image else .pdf

/-- JS `String.prototype.split('.')` at the character level: splits at every
dot, keeping empty segments (`'a..b'` gives `['a', '', 'b']`, `''` gives
`['']`). -/
def splitOnDot : List Char → List (List Char)
  | [] => [[]]
  | c :: rest =>
    let r := splitOnDot rest
    if c = '.' then [] :: r
    else (c :: r.headD []) :: r.tail

/-- JS `file.name.replace(/\.[^/.]+$/, '')`: strip a trailing dot-extension
whose characters include no dot and no slash; leave the name unchanged when
no such suffix exists. -/
def stripExt (name : String) : String :=
  let parts := splitOnDot name.data
  let lastPart := parts.getLastD []
  if 2 ≤ parts.length ∧ lastPart ≠ [] ∧ lastPart.contains '/' = false then
    String.mk (List.intercalate ['.'] parts.dropLast)
  else name

/-- One new entry of the batch variant's `handleFileChange`; `freshId` is the
value of `Math.random().toString(36).substring(7)` and `url` the object URL
allocated for image previews. -/
def mkEntryBatch (f : SourceFile) (freshId : String) (url : String) : Entry :=
  let t := classifyKind f.type
  { id := freshId
    file := f
    type := t
    preview := if t = .image then some url else none
    outputFilename := stripExt f.name
    width := if t = .image then some 800 else none
    height := if t = .image then some 600 else none }

/-- One new entry of the image-only variant's `handleFileChange`: preview and
default dimensions are set unconditionally. -/
def mkEntryImage (f : SourceFile) (freshId : String) (url : String) : Entry :=
  { id := freshId
    file := f
    type := .image
    preview := some url
    outputFilename := stripExt f.name
    width := some 800
    height := some 600 }

/-- Batch-variant intake: append one entry per selected file, in selection
order; each selected file comes with its externally drawn random id and
object URL. -/
def handleFileChange (prev : List Entry) (selected : List (SourceFile × String × String)) :
    List Entry :=
  prev ++ selected.map (fun s => mkEntryBatch s.1 s.2.1 s.2.2)

/-- Image-variant intake, same shape. -/
def handleFileChangeImage (prev : List Entry)
    (selected : List (SourceFile × String × String)) : List Entry :=
  prev ++ selected.map (fun s => mkEntryImage s.1 s.2.1 s.2.2)

/-- `removeFile`: filter out entries with the given id, find the (first)
removed entry and revoke its preview URL when it has one.  Returns the new
store together with the list of revoked URLs. -/
def removeFile (id : String) (prev : List Entry) : List Entry × List String :=
  let updatedFiles := prev.filter (fun f => f.id != id)
  let removedFile := prev.find? (fun f => f.id == id)
  match removedFile with
  | some r =>
    match r.preview with
    | some p => (updatedFiles, [p])
    | none => (updatedFiles, [])
  | none => (updatedFiles, [])

/-- A partial settings object: the spread `{ ...file, ...updates }` overrides
exactly the fields present in `updates`. -/
structure SettingsUpdate where
  outputFilename : Option String
  width : Option Nat
  height : Option Nat
  deriving DecidableEq

/-- JS object spread `{ ...file, ...updates }` for the three updatable
fields. -/
def spreadUpdate (f : Entry) (u : SettingsUpdate) : Entry :=
  { f with
    outputFilename := u.outputFilename.getD f.outputFilename
    width := match u.width with | some w => some w | none => f.width
    height := match u.height with | some h => some h | none => f.height }

/-- `updateFileSettings`: map over the store, spreading the updates onto the
entry whose id matches. -/
def updateFileSettings (id : String) (u : SettingsUpdate) (prev : List Entry) :
    List Entry :=
  prev.map (fun f => if f.id == id then spreadUpdate f u else f)

/-- A decoded pixel surface: dimensions plus a pixel sampling function. -/
structure Surface where
  width : Nat
  height : Nat
  pix : Nat → Nat → Nat

instance : Inhabited Surface := ⟨⟨0, 0, fun _ _ => 0⟩⟩

/-- Canvas `drawImage(img, 0, 0, w, h)`: the target is exactly `w × h` and
the source is stretched independently along each axis (no aspect-ratio
preservation): output pixel `(x, y)` samples the source at
`(x * srcW / w, y * srcH / h)`. -/
def drawImageStretch (img : Surface) (w : Nat) (h : Nat) : Surface :=
  { width := w
    height := h
    pix := fun x y => img.pix (x * img.width / w) (y * img.height / h) }

/-- Content of a produced blob: a re-encoded image surface with its encode
MIME type, or reserialized PDF bytes. -/
inductive BlobData where
  | image (content : Surface) (mime : String)
  | pdf (bytes : List Nat)

instance : Inhabited BlobData := ⟨.pdf []⟩

/-- The `(bytes, filename)` pair produced by processing one entry. -/
structure Artifact where
  filename : String
  data : BlobData

instance : Inhabited Artifact := ⟨⟨"", default⟩⟩

/-- Outcome of an asynchronous operation: resolved with a value, rejected, or
pending forever (a promise that never settles). -/
inductive ProcOutcome (α : Type) where
  | resolved (value : α)
  | rejected
  | pending

/-- Per-entry collaborator behaviour: result of the pdf-lib load/save chain
(`none` = some step rejected), result of decoding the preview into an `Image`
(`none` = the load never fires `onload`), and whether `canvas.toBlob`
delivers a non-null blob. -/
structure Oracle where
  pdfBytes : Option (List Nat)
  decode : Option Surface
  encodeOk : Bool

/-- JS `name.split('.').pop() || 'png'`: the last dot-separated segment of
the source filename, with `'png'` substituted only when that segment is the
empty string (which happens exactly for an empty name or a name ending in a
dot — a dotless name yields the whole name, not `'png'`). -/
def jsExtension (name : String) : String :=
  let e := (splitOnDot name.data).getLastD []
  if e = [] then "png" else String.mk e

/-- The image path shared verbatim by both variants (`processFile`'s else
branch and `processAndDownloadImage`): if the decode never fires `onload` the
promise stays pending (no `onerror` handler is installed); if `toBlob` yields
null the promise also stays pending (`resolve` is called only inside
`if (blob)`); otherwise it resolves with the stretched re-encoded artifact. -/
def processImage (o : Oracle) (e : Entry) : ProcOutcome Artifact :=
  match o.decode with
  | none => .pending
  | some img =>
    if o.encodeOk then
      .resolved
        { filename := e.outputFilename ++ "." ++ jsExtension e.file.name
          data := .image (drawImageStretch img (e.width.getD 0) (e.height.getD 0)) e.file.type }
    else .pending

/-- Batch-variant `processFile`: PDF entries reserialize through pdf-lib (a
rejection there propagates), image entries follow the shared image path. -/
def processFile (o : Oracle) (e : Entry) : ProcOutcome Artifact :=
  match e.type with
  | .pdf =>
    match o.pdfBytes with
    | none => .rejected
    | some bs => .resolved { filename := e.outputFilename ++ ".pdf", data := .pdf bs }
  | .image => processImage o e

/-- Image-variant `processAndDownloadImage`: same promise pattern as the
shared image path; a `resolved a` outcome means the artifact `a` was handed
to the download anchor before the promise resolved. -/
def processAndDownloadImage (o : Oracle) (e : Entry) : ProcOutcome Artifact :=
  processImage o e

def isResolved : ProcOutcome α → Bool
  | .resolved _ => true
  | _ => false

def isRejected : ProcOutcome α → Bool
  | .rejected => true
  | _ => false

def isPending : ProcOutcome α → Bool
  | .pending => true
  | _ => false

/-- Value of a resolved outcome (defaulting otherwise). -/
def resolvedValue [Inhabited α] : ProcOutcome α → α
  | .resolved a => a
  | _ => default

/-- `Promise.all`: rejects as soon as any member rejects; otherwise pends
forever if any member pends; otherwise resolves with all values in order. -/
def promiseAll [Inhabited α] (xs : List (ProcOutcome α)) : ProcOutcome (List α) :=
  if xs.any isRejected then .rejected
  else if xs.any isPending then .pending
  else .resolved (xs.map resolvedValue)

/-- JSZip `zip.file(name, data)`: JS object-property assignment — an existing
entry with that name keeps its position but has its data replaced, a new name
is appended at the end. -/
def zipFile (z : List (String × BlobData)) (name : String) (data : BlobData) :
    List (String × BlobData) :=
  if z.any (fun p => p.1 == name) then
    z.map (fun p => if p.1 == name then (name, data) else p)
  else z ++ [(name, data)]

/-- The archive built by the `processedFiles.forEach` loop. -/
def buildZip (arts : List Artifact) : List (String × BlobData) :=
  arts.foldl (fun z a => zipFile z a.filename a.data) []

/-- Observable result of one batch-variant run. -/
inductive RunResult where
  | noop
  | archived (zipEntries : List (String × BlobData))
  | failed
  | hung

/-- Batch-variant `processAndDownload`: early return on an empty list; then
`Promise.all` over `files.map(processFile)`.  A rejection is caught (no
archive, `finally` clears the busy flag); a pending member leaves the `await`
suspended forever (`hung`); otherwise the zip is built and downloaded.  Each
entry is paired with the collaborator behaviour its processing observes. -/
def processAndDownload (xs : List (Entry × Oracle)) : RunResult :=
  if xs.length = 0 then .noop
  else
    match promiseAll (xs.map (fun p => processFile p.2 p.1)) with
    | .rejected => .failed
    | .pending => .hung
    | .resolved arts => .archived (buildZip arts)

/-- The `processing` flag after a batch-variant run: `setProcessing(false)`
sits in a `finally`, which runs only when the awaited chain settles. -/
def busyAfterBatch : RunResult → Bool
  | .hung => true
  | _ => false

/-- Observable result of one image-variant run: the artifacts downloaded, and
how the run ended. -/
inductive SeqResult where
  | noop
  | completed (downloads : List Artifact)
  | caught (downloads : List Artifact)
  | hung (downloads : List Artifact)

/-- The `for (const file of files) await processAndDownloadImage(file)` loop:
strictly one entry at a time, each download emitted before the next entry
starts; a rejection is caught by the surrounding try/catch, a pending await
suspends the loop forever. -/
def seqLoop (xs : List (Entry × Oracle)) (acc : List Artifact) : SeqResult :=
  match xs with
  | [] => .completed acc.reverse
  | p :: rest =>
    match processAndDownloadImage p.2 p.1 with
    | .resolved a => seqLoop rest (a :: acc)
    | .rejected => .caught acc.reverse
    | .pending => .hung acc.reverse

/-- Image-variant `handleProcessAndDownload`: early return on an empty list,
then the sequential loop. -/
def handleProcessAndDownload (xs : List (Entry × Oracle)) : SeqResult :=
  if xs.length = 0 then .noop else seqLoop xs []

/-- The `processing` flag after an image-variant run. -/
def busyAfterSeq : SeqResult → Bool
  | .hung _ => true
  | _ => false

/-- Store operations reachable from the UI, across both variants.  Intake
carries, per selected file, the externally drawn random id and the allocated
object URL. -/
inductive StoreOp where
  | intakeBatch (selected : List (SourceFile × String × String))
  | intakeImage (selected : List (SourceFile × String × String))
  | removeOp (id : String)
  | updateOp (id : String) (u : SettingsUpdate)

/-- One store transition. -/
def applyOp (s : List Entry) : StoreOp → List Entry
  | .intakeBatch sel => handleFileChange s sel
  | .intakeImage sel => handleFileChangeImage s sel
  | .removeOp id => (removeFile id s).1
  | .updateOp id u => updateFileSettings id u s

/-- The store state reached from the empty store by a trace of operations. -/
def runTrace (ops : List StoreOp) : List Entry :=
  ops.foldl applyOp []

/-- The random ids an operation draws. -/
def opFreshIds : StoreOp → List String
  | .intakeBatch sel => sel.map (fun s => s.2.1)
  | .intakeImage sel => sel.map (fun s => s.2.1)
  | _ => []

/-- All random ids drawn along a trace. -/
def traceFreshIds (ops : List StoreOp) : List String :=
  (ops.map opFreshIds).flatten

/-- Projection used to state filename facts about an outcome. -/
def outcomeFilename : ProcOutcome Artifact → Option String
  | .resolved a => some a.filename
  | _ => none

/-- The data of the last artifact in the list whose filename matches, if
any: the "later processed entry wins" value for an archive name. -/
def lastWith (name : String) : List Artifact → Option BlobData
  | [] => none
  | a :: rest =>
    match lastWith name rest with
    | some d => some d
    | none => if a.filename == name then some a.data else none

/-- Number of archive entries stored under a given name. -/
def countKey (z : List (String × BlobData)) (name : String) : Nat :=
  z.countP (fun p => p.1 == name)

/-! Concrete test fixtures used by witnesses and counterexamples. -/

/-- A source image file with a regular dotted name. -/
def imgFile : SourceFile := ⟨"photo.jpg", "image/jpeg", 2048⟩

/-- A source image file whose name has no dot at all. -/
def noExtFile : SourceFile := ⟨"photo", "image/png", 1024⟩

/-- A source PDF file. -/
def pdfFile : SourceFile := ⟨"doc.pdf", "application/pdf", 4096⟩

/-- A concrete decoded surface with dimensions distinct from the targets. -/
def testSurface : Surface := ⟨40, 30, fun x y => x + 2 * y⟩

/-- Everything succeeds. -/
def goodOracle : Oracle := ⟨some [9, 9], some testSurface, true⟩

/-- The image decode never fires `onload`. -/
def badDecodeOracle : Oracle := ⟨some [9, 9], none, true⟩

/-- `canvas.toBlob` delivers null. -/
def badEncodeOracle : Oracle := ⟨some [9, 9], some testSurface, false⟩

/-- The pdf-lib load/save chain rejects. -/
def badPdfOracle : Oracle := ⟨none, some testSurface, true⟩

/-- A tracked image entry from the image-only variant's intake. -/
def imgEntry : Entry := mkEntryImage imgFile "idA" "urlA"

/-- A second tracked image entry with a distinct id. -/
def imgEntryB : Entry := mkEntryImage noExtFile "idB" "urlB"

/-- A tracked image entry from the batch variant's intake. -/
def batchImgEntry : Entry := mkEntryBatch imgFile "idC" "urlC"

/-- A tracked image entry whose source name has no extension. -/
def noExtEntry : Entry := mkEntryBatch noExtFile "idD" "urlD"

/-- A tracked PDF entry from the batch variant's intake. -/
def pdfEntry : Entry := mkEntryBatch pdfFile "idE" "urlE"

/-! Helper lemmas about the processing pipeline. -/

/-- On an image entry, the batch `processFile` is exactly the shared image
path. -/
theorem processFile_image {e : Entry} (h : e.type = FileKind.image) (o : Oracle) :
    processFile o e = processImage o e := by
  unfold processFile
  rw [h]

/-- The shared image path has no rejection: no `onerror` handler and a
`resolve` guarded by `if (blob)`. -/
theorem processImage_ne_rejected (o : Oracle) (e : Entry) :
    processImage o e ≠ ProcOutcome.rejected := by
  unfold processImage
  cases o.decode with
  | none => simp
  | some img => by_cases hk : o.encodeOk = true <;> simp [hk]

/-- A failed decode or a null blob leaves the image promise pending. -/
theorem processImage_pending (o : Oracle) (e : Entry)
    (h : o.decode = none ∨ o.encodeOk = false) :
    processImage o e = ProcOutcome.pending := by
  unfold processImage
  rcases h with h | h
  · rw [h]
  · cases o.decode with
    | none => rfl
    | some img => simp [h]

/-- A successful decode and encode resolve the image promise with the
stretched artifact. -/
theorem processImage_resolved (o : Oracle) (e : Entry) (img : Surface)
    (hd : o.decode = some img) (hk : o.encodeOk = true) :
    processImage o e = ProcOutcome.resolved
      { filename := e.outputFilename ++ "." ++ jsExtension e.file.name
        data := .image (drawImageStretch img (e.width.getD 0) (e.height.getD 0)) e.file.type } := by
  unfold processImage
  rw [hd]
  simp [hk]

/-- Splitting a dot-free character list is the identity segment. -/
theorem splitOnDot_eq_of_no_dot (l : List Char) (h : '.' ∉ l) : splitOnDot l = [l] := by
  induction l with
  | nil => rfl
  | cons c rest ih =>
    have hc : ¬ (c = '.') := fun hc => h (hc ▸ List.mem_cons_self c rest)
    have hrest : '.' ∉ rest := fun hm => h (List.mem_cons_of_mem c hm)
    unfold splitOnDot
    rw [ih hrest]
    simp [hc]

/-- For a nonempty dot-free filename, the derived extension is the whole
filename. -/
theorem jsExtension_no_dot (name : String) (hdot : '.' ∉ name.data)
    (hne : name ≠ "") : jsExtension name = name := by
  cases name with
  | mk d =>
    unfold jsExtension
    rw [splitOnDot_eq_of_no_dot d hdot]
    cases d with
    | nil => exact absurd rfl hne
    | cons c cs => rfl

theorem isPending_iff {α : Type} {x : ProcOutcome α} :
    isPending x = true ↔ x = ProcOutcome.pending := by
  cases x <;> simp [isPending]

theorem isRejected_iff {α : Type} {x : ProcOutcome α} :
    isRejected x = true ↔ x = ProcOutcome.rejected := by
  cases x <;> simp [isRejected]

theorem isResolved_false_iff {α : Type} {x : ProcOutcome α} :
    isResolved x = false ↔ x = ProcOutcome.rejected ∨ x = ProcOutcome.pending := by
  cases x <;> simp [isResolved]

/-- A `Promise.all` that resolved had every member resolved. -/
theorem promiseAll_resolved_mem {α : Type} [Inhabited α] {xs : List (ProcOutcome α)}
    {ys : List α} (h : promiseAll xs = ProcOutcome.resolved ys) {x : ProcOutcome α}
    (hx : x ∈ xs) : isResolved x = true := by
  unfold promiseAll at h
  by_cases h1 : xs.any isRejected = true
  · rw [if_pos h1] at h
    exact absurd h (by simp)
  · rw [if_neg h1] at h
    by_cases h2 : xs.any isPending = true
    · rw [if_pos h2] at h
      exact absurd h (by simp)
    · cases x with
      | resolved a => rfl
      | rejected => exact absurd (List.any_eq_true.mpr ⟨_, hx, rfl⟩) h1
      | pending => exact absurd (List.any_eq_true.mpr ⟨_, hx, rfl⟩) h2

/-- A `Promise.all` pends forever exactly when no member rejects and some
member pends. -/
theorem promiseAll_pending_iff {α : Type} [Inhabited α] (xs : List (ProcOutcome α)) :
    promiseAll xs = ProcOutcome.pending ↔
      xs.any isRejected = false ∧ xs.any isPending = true := by
  unfold promiseAll
  by_cases h1 : xs.any isRejected = true
  · rw [if_pos h1]
    simp [h1]
  · rw [if_neg h1]
    by_cases h2 : xs.any isPending = true
    · rw [if_pos h2]
      simp [h1, h2]
    · rw [if_neg h2]
      simp [h2]

/-- The sequential loop never returns a hung result when no step's promise
pends. -/
theorem seqLoop_not_hung (xs : List (Entry × Oracle)) (acc : List Artifact)
    (h : ∀ p ∈ xs, processAndDownloadImage p.2 p.1 ≠ ProcOutcome.pending) :
    busyAfterSeq (seqLoop xs acc) = false := by
  induction xs generalizing acc with
  | nil => rfl
  | cons q rest ih =>
    simp only [seqLoop]
    cases hq : processAndDownloadImage q.2 q.1 with
    | resolved a => exact ih (a :: acc) (fun p hp => h p (List.mem_cons_of_mem q hp))
    | rejected => rfl
    | pending => exact absurd hq (h q (List.mem_cons_self q rest))

/-- The sequential loop runs an all-resolved head segment in order,
accumulating its downloads. -/
theorem seqLoop_append_resolved (pre : List (Entry × Oracle)) (rest : List (Entry × Oracle))
    (acc : List Artifact)
    (hpre : ∀ p ∈ pre, isResolved (processAndDownloadImage p.2 p.1) = true) :
    seqLoop (pre ++ rest) acc =
      seqLoop rest
        ((pre.map fun p => resolvedValue (processAndDownloadImage p.2 p.1)).reverse ++ acc) := by
  induction pre generalizing acc with
  | nil => simp
  | cons q pre ih =>
    have hq := hpre q (List.mem_cons_self q pre)
    rw [List.cons_append]
    simp only [seqLoop]
    cases hqo : processAndDownloadImage q.2 q.1 with
    | resolved a =>
      show seqLoop (pre ++ rest) (a :: acc) = _
      rw [ih (a :: acc) (fun p hp => hpre p (List.mem_cons_of_mem q hp))]
      simp [hqo, resolvedValue]
    | rejected =>
      rw [hqo] at hq
      simp [isResolved] at hq
    | pending =>
      rw [hqo] at hq
      simp [isResolved] at hq

/-- Entries all missing an id are found by neither `find?` nor dropped by the
removal filter. -/
theorem find?_id_eq_none (l : List Entry) (id : String) (h : ∀ x ∈ l, x.id ≠ id) :
    l.find? (fun f => f.id == id) = none :=
  List.find?_eq_none.mpr (fun x hx => by simp [h x hx])

theorem filter_id_eq_self (l : List Entry) (id : String) (h : ∀ x ∈ l, x.id ≠ id) :
    l.filter (fun f => f.id != id) = l :=
  List.filter_eq_self.mpr (fun x hx => by simp [h x hx])

/-- `find?` skips an id-free head segment. -/
theorem find?_id_append (l : List Entry) (l2 : List Entry) (id : String)
    (h : ∀ x ∈ l, x.id ≠ id) :
    (l ++ l2).find? (fun f => f.id == id) = l2.find? (fun f => f.id == id) := by
  induction l with
  | nil => rfl
  | cons a l ih =>
    rw [List.cons_append, List.find?_cons]
    have ha : (a.id == id) = false := by simp [h a (List.mem_cons_self a l)]
    rw [ha]
    exact ih (fun x hx => h x (List.mem_cons_of_mem a hx))

/-- In a store with pairwise-distinct ids, the entries around an entry whose
id matches all have different ids. -/
theorem nodup_decomp_ids {l r : List Entry} {e : Entry} {id : String}
    (hnd : ((l ++ e :: r).map Entry.id).Nodup) (hid : e.id = id) :
    (∀ x ∈ l, x.id ≠ id) ∧ (∀ x ∈ r, x.id ≠ id) := by
  rw [List.map_append, List.map_cons, List.nodup_append] at hnd
  obtain ⟨hndl, hndr, hdisj⟩ := hnd
  have hecons := List.nodup_cons.mp hndr
  constructor
  · intro x hx hxid
    apply hdisj (List.mem_map_of_mem Entry.id hx)
    rw [hxid, ← hid]
    exact List.mem_cons_self _ _
  · intro x hx hxid
    apply hecons.1
    have hmem : x.id ∈ r.map Entry.id := List.mem_map_of_mem Entry.id hx
    rw [hxid, ← hid] at hmem
    exact hmem

/-- Mapping the settings update over an id-free segment changes nothing. -/
theorem updateFileSettings_skip (l : List Entry) (id : String) (u : SettingsUpdate)
    (h : ∀ x ∈ l, x.id ≠ id) :
    l.map (fun f => if f.id == id then spreadUpdate f u else f) = l := by
  induction l with
  | nil => rfl
  | cons a l ih =>
    rw [List.map_cons, ih (fun x hx => h x (List.mem_cons_of_mem a hx))]
    have ha : (a.id == id) = false := by simp [h a (List.mem_cons_self a l)]
    simp [ha]

/-- The store after `removeFile` is exactly the id-filtered store, whatever
`find?` returned. -/
theorem removeFile_fst (id : String) (s : List Entry) :
    (removeFile id s).1 = s.filter (fun f => f.id != id) := by
  unfold removeFile
  cases hf : s.find? (fun f => f.id == id) with
  | none => rfl
  | some r => cases hr : r.preview <;> simp [hr]

/-- Updating settings never changes the stored ids. -/
theorem map_id_update (s : List Entry) (uid : String) (u : SettingsUpdate) :
    (s.map (fun f => if f.id == uid then spreadUpdate f u else f)).map Entry.id =
      s.map Entry.id := by
  induction s with
  | nil => rfl
  | cons a l ih =>
    rw [List.map_cons, List.map_cons, ih, List.map_cons]
    by_cases ha : (a.id == uid) = true
    · simp [ha, spreadUpdate]
    · simp [ha]

/-- The ids of any state reachable from `s` form a sublist of `s`'s ids
followed by the ids the trace draws. -/
theorem foldl_ids_sublist (ops : List StoreOp) (s : List Entry) :
    ((ops.foldl applyOp s).map Entry.id).Sublist (s.map Entry.id ++ traceFreshIds ops) := by
  induction ops generalizing s with
  | nil => simp [traceFreshIds]
  | cons op ops ih =>
    have hstep : ((applyOp s op).map Entry.id).Sublist (s.map Entry.id ++ opFreshIds op) := by
      cases op with
      | intakeBatch sel =>
        have heq : (applyOp s (StoreOp.intakeBatch sel)).map Entry.id =
            s.map Entry.id ++ opFreshIds (StoreOp.intakeBatch sel) := by
          show (s ++ sel.map fun q => mkEntryBatch q.1 q.2.1 q.2.2).map Entry.id = _
          rw [List.map_append, List.map_map]
          rfl
        rw [heq]
      | intakeImage sel =>
        have heq : (applyOp s (StoreOp.intakeImage sel)).map Entry.id =
            s.map Entry.id ++ opFreshIds (StoreOp.intakeImage sel) := by
          show (s ++ sel.map fun q => mkEntryImage q.1 q.2.1 q.2.2).map Entry.id = _
          rw [List.map_append, List.map_map]
          rfl
        rw [heq]
      | removeOp rid =>
        rw [show applyOp s (StoreOp.removeOp rid) = s.filter (fun f => f.id != rid)
          from removeFile_fst rid s]
        simpa [opFreshIds] using (List.filter_sublist s).map Entry.id
      | updateOp uid u =>
        have heq : (applyOp s (StoreOp.updateOp uid u)).map Entry.id = s.map Entry.id :=
          map_id_update s uid u
        rw [heq]
        simp
    have hcons : traceFreshIds (op :: ops) = opFreshIds op ++ traceFreshIds ops := by
      simp [traceFreshIds]
    rw [List.foldl_cons, hcons, ← List.append_assoc]
    exact (ih (applyOp s op)).trans (hstep.append (List.Sublist.refl (traceFreshIds ops)))

/-- `zip.file` on a name already present replaces data in place, preserving
every name's multiplicity. -/
theorem countKey_replace (z : List (String × BlobData)) (n : String) (d : BlobData)
    (name : String) :
    countKey (z.map (fun p => if p.1 == n then (n, d) else p)) name = countKey z name := by
  induction z with
  | nil => rfl
  | cons a l ih =>
    rw [List.map_cons]
    unfold countKey at ih ⊢
    rw [List.countP_cons, List.countP_cons, ih]
    congr 1
    by_cases ha : (a.1 == n) = true
    · have : a.1 = n := beq_iff_eq.mp ha
      simp [ha, this]
    · simp [ha]

theorem countKey_append_single (z : List (String × BlobData)) (n : String) (d : BlobData)
    (name : String) :
    countKey (z ++ [(n, d)]) name = countKey z name + (if n == name then 1 else 0) := by
  unfold countKey
  rw [List.countP_append]
  congr 1
  simp [List.countP_cons]

/-- Multiplicity of a name after one `zip.file` call. -/
theorem zipFile_countKey (z : List (String × BlobData)) (n : String) (d : BlobData)
    (name : String) :
    countKey (zipFile z n d) name =
      if z.any (fun p => p.1 == n) then countKey z name
      else countKey z name + (if n == name then 1 else 0) := by
  unfold zipFile
  by_cases hz : z.any (fun p => p.1 == n) = true
  · rw [if_pos hz, if_pos hz]
    exact countKey_replace z n d name
  · rw [if_neg hz, if_neg hz]
    exact countKey_append_single z n d name

/-- An absent name has multiplicity zero. -/
theorem countKey_eq_zero (z : List (String × BlobData)) (n : String)
    (hz : z.any (fun p => p.1 == n) = false) : countKey z n = 0 := by
  unfold countKey
  apply List.countP_eq_zero.mpr
  intro p hp
  exact List.any_eq_false.mp hz p hp

/-- `zip.file` keeps every name's multiplicity at most one. -/
theorem zipFile_inv (z : List (String × BlobData)) (n : String) (d : BlobData)
    (hinv : ∀ nm, countKey z nm ≤ 1) (nm : String) :
    countKey (zipFile z n d) nm ≤ 1 := by
  rw [zipFile_countKey]
  by_cases hz : z.any (fun p => p.1 == n) = true
  · rw [if_pos hz]
    exact hinv nm
  · rw [if_neg hz]
    by_cases hn : (n == nm) = true
    · have : countKey z nm = 0 := by
        rw [← beq_iff_eq.mp hn]
        exact countKey_eq_zero z n (Bool.eq_false_iff.mpr hz)
      rw [this]
      simp [hn]
    · simp [hn]
      exact hinv nm

/-- Folding `zip.file` over artifacts: a name occurring among them ends with
multiplicity exactly one. -/
theorem buildZipFrom_countKey (arts : List Artifact) (z : List (String × BlobData))
    (name : String) (hinv : ∀ nm, countKey z nm ≤ 1) :
    countKey (arts.foldl (fun zz a => zipFile zz a.filename a.data) z) name =
      if arts.any (fun a => a.filename == name) then 1 else countKey z name := by
  induction arts generalizing z with
  | nil => simp
  | cons a arts ih =>
    rw [List.foldl_cons, ih (zipFile z a.filename a.data) (zipFile_inv z _ _ hinv),
      List.any_cons]
    by_cases hrest : arts.any (fun a => a.filename == name) = true
    · simp [hrest]
    · have hrf : arts.any (fun a => a.filename == name) = false := by simpa using hrest
      rw [hrf]
      by_cases ha : (a.filename == name) = true
      · have hname : a.filename = name := beq_iff_eq.mp ha
        rw [zipFile_countKey]
        by_cases hz : z.any (fun p => p.1 == a.filename) = true
        · rw [if_pos hz]
          have hle := hinv name
          have hpos : 0 < countKey z name := by
            apply List.countP_pos_iff.mpr
            obtain ⟨p, hp, hpn⟩ := List.any_eq_true.mp hz
            exact ⟨p, hp, by rw [← hname]; exact hpn⟩
          have h1 : countKey z name = 1 := Nat.le_antisymm hle hpos
          rw [h1]
          simp [ha]
        · rw [if_neg hz]
          have h0 : countKey z name = 0 := by
            rw [← hname]
            exact countKey_eq_zero z a.filename (Bool.eq_false_iff.mpr hz)
          rw [h0]
          simp [ha]
      · rw [zipFile_countKey]
        by_cases hz : z.any (fun p => p.1 == a.filename) = true
        · rw [if_pos hz]
          simp [ha]
        · rw [if_neg hz]
          simp [ha]

theorem beq_symm_false {a b : String} (h : (a == b) = false) : (b == a) = false :=
  beq_eq_false_iff_ne.mpr (fun hcon => (beq_eq_false_iff_ne.mp h) hcon.symm)

/-- `lookup` on a cons, written with `if`. -/
theorem lookup_cons (name : String) (a : String × BlobData) (l : List (String × BlobData)) :
    List.lookup name (a :: l) = if name == a.1 then some a.2 else List.lookup name l := by
  cases h : name == a.1 <;> simp [List.lookup, h]

/-- In-place replacement of another name does not change a `lookup`. -/
theorem lookup_map_ne (z : List (String × BlobData)) (n : String) (d : BlobData)
    (name : String) (hne : (name == n) = false) :
    List.lookup name (z.map (fun p => if p.1 == n then (n, d) else p)) =
      List.lookup name z := by
  induction z with
  | nil => rfl
  | cons a l ih =>
    rw [List.map_cons]
    by_cases ha : (a.1 == n) = true
    · rw [if_pos ha, lookup_cons, lookup_cons]
      have h1 : (name == a.1) = false := by
        rw [beq_iff_eq.mp ha]
        exact hne
      rw [if_neg (ne_true_of_eq_false (show (name == (n, d).1) = false from hne)),
        if_neg (ne_true_of_eq_false h1)]
      exact ih
    · rw [if_neg ha, lookup_cons, lookup_cons, ih]

/-- After in-place replacement of a present name, `lookup` finds the new
data. -/
theorem lookup_map_eq (z : List (String × BlobData)) (n : String) (d : BlobData)
    (hz : z.any (fun p => p.1 == n) = true) :
    List.lookup n (z.map (fun p => if p.1 == n then (n, d) else p)) = some d := by
  induction z with
  | nil => simp at hz
  | cons a l ih =>
    rw [List.map_cons]
    by_cases ha : (a.1 == n) = true
    · rw [if_pos ha, lookup_cons]
      simp
    · rw [if_neg ha, lookup_cons]
      have hna : (n == a.1) = false := beq_symm_false (Bool.eq_false_iff.mpr ha)
      have hz2 : l.any (fun p => p.1 == n) = true := by
        rcases List.any_eq_true.mp hz with ⟨x, hx, hxn⟩
        cases hx with
        | head => exact absurd hxn ha
        | tail _ hmem => exact List.any_eq_true.mpr ⟨x, hmem, hxn⟩
      rw [if_neg (ne_true_of_eq_false hna)]
      exact ih hz2

/-- `lookup` of an entirely absent name is `none`. -/
theorem lookup_none_of_no_key (z : List (String × BlobData)) (n : String)
    (hz : z.any (fun p => p.1 == n) = false) : List.lookup n z = none := by
  induction z with
  | nil => rfl
  | cons a l ih =>
    simp only [List.any_cons] at hz
    obtain ⟨ha, hl⟩ := Bool.or_eq_false_iff.mp hz
    rw [lookup_cons]
    have hna : (n == a.1) = false := beq_symm_false ha
    simp [hna, ih hl]

/-- `lookup` over an appended singleton. -/
theorem lookup_append_single (z : List (String × BlobData)) (n : String) (d : BlobData)
    (name : String) :
    List.lookup name (z ++ [(n, d)]) =
      match List.lookup name z with
      | some v => some v
      | none => if name == n then some d else none := by
  induction z with
  | nil => simp [lookup_cons]
  | cons a l ih =>
    rw [List.cons_append, lookup_cons, lookup_cons, ih]
    by_cases h : (name == a.1) = true
    · simp [h]
    · simp [h]

/-- Net effect of one `zip.file` call on a `lookup`. -/
theorem zipFile_lookup (z : List (String × BlobData)) (n : String) (d : BlobData)
    (name : String) :
    List.lookup name (zipFile z n d) =
      if name == n then some d else List.lookup name z := by
  unfold zipFile
  by_cases hz : z.any (fun p => p.1 == n) = true
  · rw [if_pos hz]
    by_cases hn : (name == n) = true
    · rw [if_pos hn, beq_iff_eq.mp hn]
      exact lookup_map_eq z n d hz
    · rw [if_neg hn]
      exact lookup_map_ne z n d name (Bool.eq_false_iff.mpr hn)
  · rw [if_neg hz, lookup_append_single]
    by_cases hn : (name == n) = true
    · have h0 : List.lookup name z = none := by
        rw [beq_iff_eq.mp hn]
        exact lookup_none_of_no_key z n (Bool.eq_false_iff.mpr hz)
      rw [h0]
    · cases hlk : List.lookup name z with
      | some v => simp [hn]
      | none => simp [hn]

/-- Folding `zip.file` over artifacts: a `lookup` returns the data of the
last matching artifact, falling back to the accumulator. -/
theorem buildZipFrom_lookup (arts : List Artifact) (z : List (String × BlobData))
    (name : String) :
    List.lookup name (arts.foldl (fun zz a => zipFile zz a.filename a.data) z) =
      match lastWith name arts with
      | some d => some d
      | none => List.lookup name z := by
  induction arts generalizing z with
  | nil => rfl
  | cons a arts ih =>
    rw [List.foldl_cons, ih (zipFile z a.filename a.data)]
    simp only [lastWith]
    cases hlast : lastWith name arts with
    | some d => rfl
    | none =>
      rw [zipFile_lookup]
      by_cases hn : (name == a.filename) = true
      · have h2 : (a.filename == name) = true := by
          rw [beq_iff_eq] at hn ⊢
          exact hn.symm
        simp [hn, h2]
      · have hnf : (name == a.filename) = false := Bool.eq_false_iff.mpr hn
        have h2 : (a.filename == name) = false := beq_symm_false hnf
        simp [hnf, h2]

/-- Some artifact matches a name exactly when the last-match value exists. -/
theorem lastWith_isSome (name : String) (arts : List Artifact)
    (h : arts.any (fun a => a.filename == name) = true) :
    (lastWith name arts).isSome = true := by
  induction arts with
  | nil => simp at h
  | cons a arts ih =>
    simp only [lastWith]
    cases hlast : lastWith name arts with
    | some d => rfl
    | none =>
      simp only [List.any_cons] at h
      by_cases hrest : arts.any (fun x => x.filename == name) = true
      · have hsome := ih hrest
        rw [hlast] at hsome
        exact absurd hsome (by simp)
      · have hrf : arts.any (fun x => x.filename == name) = false :=
          Bool.eq_false_iff.mpr hrest
        rw [hrf, Bool.or_false] at h
        simp [h]

/-! Claims. -/

/-- C10: In both variants, the per-image processing operation can never
settle with an error: the decode installs only an `onload` handler and the
encode callback resolves only inside an `if (blob)` guard, so the promise
never rejects, and on a decode or encode failure it remains pending
forever. -/
theorem claim10_image_promise_no_rejection (o : Oracle) (e : Entry) :
    processAndDownloadImage o e ≠ ProcOutcome.rejected ∧
    (e.type = FileKind.image → processFile o e ≠ ProcOutcome.rejected) ∧
    ((o.decode = none ∨ o.encodeOk = false) →
      processAndDownloadImage o e = ProcOutcome.pending ∧
      (e.type = FileKind.image → processFile o e = ProcOutcome.pending)) := by
  refine ⟨processImage_ne_rejected o e, fun he => ?_, fun hf => ⟨?_, fun he => ?_⟩⟩
  · rw [processFile_image he]
    exact processImage_ne_rejected o e
  · exact processImage_pending o e hf
  · rw [processFile_image he]
    exact processImage_pending o e hf

/-- Witness for C10 at a concrete decode failure. -/
theorem claim10_witness :
    processAndDownloadImage badDecodeOracle imgEntry = ProcOutcome.pending ∧
    processFile badDecodeOracle imgEntry = ProcOutcome.pending :=
  ⟨((claim10_image_promise_no_rejection badDecodeOracle imgEntry).2.2 (Or.inl rfl)).1,
   ((claim10_image_promise_no_rejection badDecodeOracle imgEntry).2.2 (Or.inl rfl)).2 rfl⟩

/-- C4: for every image entry with positive integer target dimensions whose
decode succeeds (and whose encode delivers a blob), processing resolves with
an image surface of exactly targetWidth × targetHeight, independent of the
source dimensions, the source being stretched independently along each axis
with no aspect-ratio preservation. -/
theorem claim4_stretch_to_target_dimensions (o : Oracle) (e : Entry) (img : Surface)
    (w h : Nat) (he : e.type = FileKind.image) (hw : e.width = some w)
    (hh : e.height = some h) (hwpos : 0 < w) (hhpos : 0 < h)
    (hd : o.decode = some img) (hk : o.encodeOk = true) :
    ∃ s, processFile o e = ProcOutcome.resolved
        { filename := e.outputFilename ++ "." ++ jsExtension e.file.name
          data := .image s e.file.type } ∧
      s.width = w ∧ s.height = h ∧
      ∀ x y, s.pix x y = img.pix (x * img.width / w) (y * img.height / h) := by
  refine ⟨drawImageStretch img w h, ?_, rfl, rfl, fun x y => rfl⟩
  rw [processFile_image he, processImage_resolved o e img hd hk, hw, hh]
  rfl

/-- Witness for C4: the 40 × 30 test surface is stretched to 800 × 600. -/
theorem claim4_witness :
    (∃ s, processFile goodOracle imgEntry = ProcOutcome.resolved
        { filename := imgEntry.outputFilename ++ "." ++ jsExtension imgEntry.file.name
          data := .image s imgEntry.file.type } ∧
      s.width = 800 ∧ s.height = 600 ∧
      ∀ x y, s.pix x y = testSurface.pix (x * testSurface.width / 800)
        (y * testSurface.height / 600)) ∧
    imgEntry.outputFilename ++ "." ++ jsExtension imgEntry.file.name = "photo.jpg" :=
  ⟨claim4_stretch_to_target_dimensions goodOracle imgEntry testSurface 800 600
      rfl rfl rfl (by decide) (by decide) rfl rfl,
   by decide⟩

/-- C3 counterexample: for the image file named `photo` (a name with no dot),
the produced filename is `photo.photo` — the whole source name is used as the
extension — not the claimed default `photo.png`. -/
theorem claim3_counterexample :
    outcomeFilename (processFile goodOracle noExtEntry) = some "photo.photo" ∧
    some "photo.photo" ≠ some ("photo" ++ "." ++ "png") :=
  ⟨by decide, by decide⟩

/-- C3 (amended): the output filename equals outputName ++ "." ++ ext, where
for image entries ext is the last dot-separated segment of the source
filename — which is the whole filename when the name contains no dot — with
"png" used only when that segment is empty (empty name or name ending in a
dot); for document entries ext is literally "pdf" unconditionally. -/
theorem claim3_amended_output_filename (e : Entry) (o : Oracle) :
    (e.type = FileKind.image → o.decode ≠ none → o.encodeOk = true →
      outcomeFilename (processFile o e) =
        some (e.outputFilename ++ "." ++ jsExtension e.file.name) ∧
      outcomeFilename (processAndDownloadImage o e) =
        some (e.outputFilename ++ "." ++ jsExtension e.file.name)) ∧
    (e.type = FileKind.pdf → o.pdfBytes ≠ none →
      outcomeFilename (processFile o e) = some (e.outputFilename ++ ".pdf")) ∧
    ('.' ∉ e.file.name.data → e.file.name ≠ "" →
      jsExtension e.file.name = e.file.name) := by
  refine ⟨fun he hd hk => ?_, fun he hb => ?_, fun hdot hne => ?_⟩
  · cases hdec : o.decode with
    | none => exact absurd hdec hd
    | some img =>
      constructor
      · rw [processFile_image he, processImage_resolved o e img hdec hk]
        rfl
      · unfold processAndDownloadImage
        rw [processImage_resolved o e img hdec hk]
        rfl
  · cases hbs : o.pdfBytes with
    | none => exact absurd hbs hb
    | some bs =>
      unfold processFile
      rw [he, hbs]
      rfl
  · exact jsExtension_no_dot e.file.name hdot hne

/-- Witness for C3 (amended) on a dotted image name, a PDF, and a dotless
image name. -/
theorem claim3_witness :
    (outcomeFilename (processFile goodOracle batchImgEntry) =
      some (batchImgEntry.outputFilename ++ "." ++ jsExtension batchImgEntry.file.name)) ∧
    (outcomeFilename (processFile goodOracle pdfEntry) =
      some (pdfEntry.outputFilename ++ ".pdf")) ∧
    jsExtension noExtEntry.file.name = noExtEntry.file.name :=
  ⟨((claim3_amended_output_filename batchImgEntry goodOracle).1 rfl
      (fun h => Option.noConfusion h) rfl).1,
   (claim3_amended_output_filename pdfEntry goodOracle).2.1 rfl
      (fun h => Option.noConfusion h),
   (claim3_amended_output_filename noExtEntry goodOracle).2.2 (by decide) (by decide)⟩

/-- C1: in the collect-then-package variant, for every non-empty entry list,
if processing of any single entry fails (its promise rejects or never
settles), the whole batch run fails — it is caught or hangs — and no archive
is produced, so no entry's artifact becomes downloadable in that run. -/
theorem claim1_collect_then_package_failure (xs : List (Entry × Oracle))
    (hne : xs ≠ []) (p : Entry × Oracle) (hp : p ∈ xs)
    (hfail : isResolved (processFile p.2 p.1) = false) :
    (processAndDownload xs = RunResult.failed ∨
      processAndDownload xs = RunResult.hung) ∧
    ∀ z, processAndDownload xs ≠ RunResult.archived z := by
  unfold processAndDownload
  rw [if_neg (fun h0 => hne (List.length_eq_zero.mp h0))]
  cases hall : promiseAll (xs.map fun q => processFile q.2 q.1) with
  | rejected => exact ⟨Or.inl rfl, fun z hz => RunResult.noConfusion hz⟩
  | pending => exact ⟨Or.inr rfl, fun z hz => RunResult.noConfusion hz⟩
  | resolved arts =>
    have hres : isResolved (processFile p.2 p.1) = true :=
      promiseAll_resolved_mem hall (List.mem_map_of_mem _ hp)
    rw [hfail] at hres
    exact Bool.noConfusion hres

/-- Concrete batch input: one good image entry plus one whose decode fails. -/
def mixedBatch : List (Entry × Oracle) :=
  [(batchImgEntry, goodOracle), (imgEntry, badDecodeOracle)]

/-- Witness for C1 at the concrete mixed batch. -/
theorem claim1_witness :
    (processAndDownload mixedBatch = RunResult.failed ∨
      processAndDownload mixedBatch = RunResult.hung) ∧
    ∀ z, processAndDownload mixedBatch ≠ RunResult.archived z :=
  claim1_collect_then_package_failure mixedBatch (List.cons_ne_nil _ _)
    (imgEntry, badDecodeOracle) (List.Mem.tail _ (List.Mem.head _)) rfl

/-- C2 counterexample: a run over a single image entry whose decode never
completes leaves the busy flag set forever, in both variants — the per-entry
error is never caught at the batch boundary because the per-entry promise
never settles. -/
theorem claim2_counterexample :
    busyAfterBatch (processAndDownload [(imgEntry, badDecodeOracle)]) = true ∧
    busyAfterSeq (handleProcessAndDownload [(imgEntry, badDecodeOracle)]) = true :=
  ⟨rfl, rfl⟩

/-- C2 (amended): the busy flag is set before a run and cleared when the run
ends on success and on every caught (rejected-promise) failure — any run all
of whose per-entry promises settle clears it — but an image decode or encode
failure leaves its per-entry promise pending forever, the run never ends,
and the busy flag stays set. -/
theorem claim2_amended_busy_flag (xs : List (Entry × Oracle)) :
    ((∀ p ∈ xs, processFile p.2 p.1 ≠ ProcOutcome.pending) →
      busyAfterBatch (processAndDownload xs) = false) ∧
    ((∀ p ∈ xs, processAndDownloadImage p.2 p.1 ≠ ProcOutcome.pending) →
      busyAfterSeq (handleProcessAndDownload xs) = false) ∧
    (xs ≠ [] → (∃ p ∈ xs, processFile p.2 p.1 = ProcOutcome.pending) →
      (∀ p ∈ xs, processFile p.2 p.1 ≠ ProcOutcome.rejected) →
      busyAfterBatch (processAndDownload xs) = true) := by
  refine ⟨fun h => ?_, fun h => ?_, fun hne hex hnr => ?_⟩
  · unfold processAndDownload
    by_cases h0 : xs.length = 0
    · rw [if_pos h0]
      rfl
    · rw [if_neg h0]
      cases hall : promiseAll (xs.map fun q => processFile q.2 q.1) with
      | rejected => rfl
      | resolved arts => rfl
      | pending =>
        have h2 := ((promiseAll_pending_iff _).mp hall).2
        obtain ⟨y, hy, hyp⟩ := List.any_eq_true.mp h2
        obtain ⟨q, hq, rfl⟩ := List.mem_map.mp hy
        exact absurd (isPending_iff.mp hyp) (h q hq)
  · unfold handleProcessAndDownload
    by_cases h0 : xs.length = 0
    · rw [if_pos h0]
      rfl
    · rw [if_neg h0]
      exact seqLoop_not_hung xs [] h
  · unfold processAndDownload
    rw [if_neg (fun h0 => hne (List.length_eq_zero.mp h0))]
    have hpall : promiseAll (xs.map fun q => processFile q.2 q.1) =
        ProcOutcome.pending := by
      apply (promiseAll_pending_iff _).mpr
      constructor
      · apply List.any_eq_false.mpr
        intro y hy hcon
        obtain ⟨q, hq, rfl⟩ := List.mem_map.mp hy
        exact hnr q hq (isRejected_iff.mp hcon)
      · obtain ⟨p, hp, hpend⟩ := hex
        exact List.any_eq_true.mpr
          ⟨_, List.mem_map_of_mem _ hp, isPending_iff.mpr hpend⟩
    rw [hpall]
    rfl

/-- Witness for C2 (amended) at concrete runs: a settling batch (one PDF that
rejects, one good image) ends un-busy; a batch whose only image entry's
decode hangs stays busy. -/
theorem claim2_witness :
    busyAfterBatch (processAndDownload [(pdfEntry, badPdfOracle), (batchImgEntry, goodOracle)]) = false ∧
    busyAfterSeq (handleProcessAndDownload [(imgEntry, goodOracle)]) = false ∧
    busyAfterBatch (processAndDownload [(imgEntry, badDecodeOracle)]) = true := by
  refine ⟨(claim2_amended_busy_flag [(pdfEntry, badPdfOracle), (batchImgEntry, goodOracle)]).1 ?_,
    (claim2_amended_busy_flag [(imgEntry, goodOracle)]).2.1 ?_,
    (claim2_amended_busy_flag [(imgEntry, badDecodeOracle)]).2.2
      (List.cons_ne_nil _ _) ⟨(imgEntry, badDecodeOracle), List.Mem.head _, rfl⟩ ?_⟩
  · intro p hp
    cases hp with
    | head => exact fun hcon => ProcOutcome.noConfusion hcon
    | tail _ h1 =>
      cases h1 with
      | head => exact fun hcon => ProcOutcome.noConfusion hcon
      | tail _ h2 => cases h2
  · intro p hp
    cases hp with
    | head => exact fun hcon => ProcOutcome.noConfusion hcon
    | tail _ h1 => cases h1
  · intro p hp
    cases hp with
    | head => exact fun hcon => ProcOutcome.noConfusion hcon
    | tail _ h1 => cases h1

/-- C5: in the sequential-emit variant, when every entry before some failing
entry resolves and that entry's processing fails (its promise never
settles), the run's downloads are exactly the artifacts of the preceding
entries, emitted in store order before the failure, the loop hangs there,
and no entry at or after the failing one is processed or downloaded. -/
theorem claim5_sequential_emit (pre : List (Entry × Oracle)) (bad : Entry × Oracle)
    (post : List (Entry × Oracle))
    (hpre : ∀ p ∈ pre, isResolved (processAndDownloadImage p.2 p.1) = true)
    (hbad : isResolved (processAndDownloadImage bad.2 bad.1) = false) :
    handleProcessAndDownload (pre ++ bad :: post) =
      SeqResult.hung (pre.map fun p => resolvedValue (processAndDownloadImage p.2 p.1)) := by
  have hpend : processAndDownloadImage bad.2 bad.1 = ProcOutcome.pending := by
    rcases isResolved_false_iff.mp hbad with h | h
    · exact absurd h (processImage_ne_rejected bad.2 bad.1)
    · exact h
  unfold handleProcessAndDownload
  rw [if_neg (by simp)]
  rw [seqLoop_append_resolved pre (bad :: post) [] hpre]
  simp only [seqLoop]
  rw [hpend]
  simp

/-- C6: on a store with pairwise-distinct ids, `removeFile id` is a no-op
(no removal, no revocation) when no entry has the id; when the entry `e` has
it, exactly `e` is deleted, `e`'s preview handle is revoked exactly once
(never skipped when present), the id is subsequently absent, and the
remaining entries keep their settings and relative order. -/
theorem claim6_remove_file (s : List Entry) (id : String)
    (hnd : (s.map Entry.id).Nodup) :
    ((∀ e ∈ s, e.id ≠ id) → removeFile id s = (s, [])) ∧
    (∀ l e r, s = l ++ e :: r → e.id = id →
      (removeFile id s).1 = l ++ r ∧
      (removeFile id s).2 = e.preview.toList ∧
      ∀ x ∈ (removeFile id s).1, x.id ≠ id) := by
  constructor
  · intro habs
    unfold removeFile
    rw [find?_id_eq_none s id habs, filter_id_eq_self s id habs]
  · intro l e r hs hid
    subst hs
    obtain ⟨hl, hr⟩ := nodup_decomp_ids hnd hid
    have hrem : removeFile id (l ++ e :: r) = (l ++ r, e.preview.toList) := by
      unfold removeFile
      rw [find?_id_append l (e :: r) id hl, List.find?_cons,
        show (e.id == id) = true by simp [hid], List.filter_append,
        filter_id_eq_self l id hl, List.filter_cons,
        show (e.id != id) = false by simp [hid], filter_id_eq_self r id hr]
      cases hp : e.preview <;> simp [hp]
    refine ⟨by rw [hrem], by rw [hrem], ?_⟩
    rw [hrem]
    intro x hx
    rcases List.mem_append.mp hx with hxl | hxr
    · exact hl x hxl
    · exact hr x hxr

/-- Witness for C6: removing `idB` from a two-entry store removes exactly
that entry and revokes exactly its preview handle. -/
theorem claim6_witness :
    (removeFile "idB" [imgEntry, imgEntryB]).1 = [imgEntry] ∧
    (removeFile "idB" [imgEntry, imgEntryB]).2 = ["urlB"] := by
  have h := (claim6_remove_file [imgEntry, imgEntryB] "idB" (by decide)).2
      [imgEntry] imgEntryB [] rfl rfl
  exact ⟨h.1, h.2.1⟩

/-- C7: on a store with pairwise-distinct ids, `updateFileSettings` is a
no-op when the id is absent; otherwise it replaces only the named settings
fields on the matching entry — its preview handle, id, source file and kind
are untouched — and leaves every other entry, the store's length and the
order unchanged. -/
theorem claim7_update_settings (s : List Entry) (id : String) (u : SettingsUpdate)
    (hnd : (s.map Entry.id).Nodup) :
    ((∀ e ∈ s, e.id ≠ id) → updateFileSettings id u s = s) ∧
    (∀ l e r, s = l ++ e :: r → e.id = id →
      updateFileSettings id u s = l ++ spreadUpdate e u :: r ∧
      (spreadUpdate e u).preview = e.preview ∧
      (spreadUpdate e u).id = e.id ∧
      (spreadUpdate e u).file = e.file ∧
      (spreadUpdate e u).type = e.type ∧
      (updateFileSettings id u s).length = s.length) := by
  constructor
  · intro habs
    unfold updateFileSettings
    exact updateFileSettings_skip s id u habs
  · intro l e r hs hid
    subst hs
    obtain ⟨hl, hr⟩ := nodup_decomp_ids hnd hid
    refine ⟨?_, rfl, rfl, rfl, rfl, ?_⟩
    · unfold updateFileSettings
      rw [List.map_append, List.map_cons, updateFileSettings_skip l id u hl,
        updateFileSettings_skip r id u hr]
      simp [hid]
    · unfold updateFileSettings
      exact List.length_map _ _

/-- A concrete partial settings update: new name and width, height absent. -/
def testUpdate : SettingsUpdate := ⟨some "renamed", some 1024, none⟩

/-- Witness for C7 at a concrete two-entry store. -/
theorem claim7_witness :
    updateFileSettings "idA" testUpdate [imgEntry, imgEntryB] =
      [spreadUpdate imgEntry testUpdate, imgEntryB] ∧
    (spreadUpdate imgEntry testUpdate).preview = imgEntry.preview ∧
    (spreadUpdate imgEntry testUpdate).outputFilename = "renamed" ∧
    (spreadUpdate imgEntry testUpdate).height = imgEntry.height := by
  have h := (claim7_update_settings [imgEntry, imgEntryB] "idA" testUpdate (by decide)).2
      [] imgEntry [imgEntryB] rfl rfl
  exact ⟨h.1, h.2.1, by decide, by decide⟩

/-- Concrete sequential input: a good entry, then a failing decode, then
another good entry. -/
def seqInput : List (Entry × Oracle) :=
  [(imgEntry, goodOracle), (imgEntryB, badDecodeOracle), (batchImgEntry, goodOracle)]

/-- Witness for C5: only the first entry's artifact is downloaded. -/
theorem claim5_witness :
    handleProcessAndDownload seqInput =
      SeqResult.hung
        ([(imgEntry, goodOracle)].map fun p =>
          resolvedValue (processAndDownloadImage p.2 p.1)) :=
  claim5_sequential_emit [(imgEntry, goodOracle)] (imgEntryB, badDecodeOracle)
    [(batchImgEntry, goodOracle)]
    (fun p hp => by
      cases hp with
      | head => rfl
      | tail _ h1 => cases h1)
    rfl

/-- C8 counterexample: intake performs no collision check on the randomly
drawn ids, so a trace whose two intakes draw the same random value reaches a
store with duplicate ids. -/
theorem claim8_counterexample :
    ¬ ((runTrace [StoreOp.intakeBatch [(imgFile, "a", "u1")],
        StoreOp.intakeBatch [(imgFile, "a", "u2")]]).map Entry.id).Nodup := by
  decide

/-- C8 (amended): ids are pairwise distinct in every reachable store state of
either variant provided the randomly drawn intake ids of the trace are
themselves pairwise distinct; removal and settings updates preserve the
distinctness unconditionally, but intake itself performs no collision
check. -/
theorem claim8_amended_unique_ids (ops : List StoreOp)
    (h : (traceFreshIds ops).Nodup) :
    ((runTrace ops).map Entry.id).Nodup := by
  have hs := foldl_ids_sublist ops []
  simp only [List.map_nil, List.nil_append] at hs
  exact List.Nodup.sublist hs h

/-- Witness for C8 (amended): a trace with two intakes (one per variant), a
removal and an update, whose drawn ids are distinct. -/
theorem claim8_witness :
    ((runTrace [StoreOp.intakeBatch [(imgFile, "a", "u1"), (pdfFile, "b", "u2")],
        StoreOp.intakeImage [(noExtFile, "c", "u3")],
        StoreOp.removeOp "b",
        StoreOp.updateOp "a" testUpdate]).map Entry.id).Nodup :=
  claim8_amended_unique_ids _ (by decide)

/-- C9: when two or more processed artifacts share an output filename, the
built archive holds exactly one entry under that name, carrying the data of
the last-processed matching artifact — object assignment silently
overwrites, raising no error. -/
theorem claim9_archive_name_collision (arts : List Artifact) (name : String)
    (hdup : 2 ≤ arts.countP (fun a => a.filename == name)) :
    countKey (buildZip arts) name = 1 ∧
    List.lookup name (buildZip arts) = lastWith name arts ∧
    (lastWith name arts).isSome = true := by
  have hany : arts.any (fun a => a.filename == name) = true := by
    apply List.any_eq_true.mpr
    have hpos : 0 < arts.countP (fun a => a.filename == name) := by omega
    exact List.countP_pos_iff.mp hpos
  refine ⟨?_, ?_, lastWith_isSome name arts hany⟩
  · have hck := buildZipFrom_countKey arts [] name (fun nm => by simp [countKey])
    rw [hany] at hck
    simpa using hck
  · have hlk := buildZipFrom_lookup arts [] name
    cases hlast : lastWith name arts with
    | some d =>
      rw [hlast] at hlk
      exact hlk
    | none =>
      have hsome := lastWith_isSome name arts hany
      rw [hlast] at hsome
      exact absurd hsome (by simp)

/-- Two artifacts with the same output filename and different data. -/
def collidingArts : List Artifact :=
  [⟨"a.png", .pdf [1]⟩, ⟨"a.png", .pdf [2]⟩]

/-- Witness for C9: the archive keeps one entry named `a.png`, holding the
second (later) artifact's data. -/
theorem claim9_witness :
    countKey (buildZip collidingArts) "a.png" = 1 ∧
    List.lookup "a.png" (buildZip collidingArts) = some (BlobData.pdf [2]) := by
  have h := claim9_archive_name_collision collidingArts "a.png" (by decide)
  exact ⟨h.1, h.2.1.trans rfl⟩

end DocHelper
